import Mathlib

/-!
Verification of the deterministic GAIA answer scorer
(`green-evaluator/agent/scoring.py`, class `GAIAScorer`).

Strings are modelled as `List Char` (Python `str` as a sequence of code
points).  Python floats are modelled as rationals (`ℚ`): every literal the
scorer actually parses is a decimal literal with an optional exponent, which
is an exact rational; IEEE rounding, `inf`/`nan` spellings and numeric
underscore separators are outside the model.  The character classes of the
regexes (`\w`, `\s`) and `str.lower` are modelled on their ASCII fragment,
defined on code points.
-/

namespace Scoring

/-! ### Character model

`isSpaceChar` models the regex class `\s` (ASCII fragment:
space, tab, newline, vertical tab, form feed, carriage return);
`isWordChar` models `\w` (ASCII fragment: letters, digits, underscore);
`toLowerChar` models `str.lower` (ASCII fragment). -/

def isSpaceChar (c : Char) : Bool :=
  c.toNat = 32 || c.toNat = 9 || c.toNat = 10 || c.toNat = 11 || c.toNat = 12 || c.toNat = 13

def isDigitChar (c : Char) : Bool :=
  48 ≤ c.toNat && c.toNat ≤ 57

def isUpperChar (c : Char) : Bool :=
  65 ≤ c.toNat && c.toNat ≤ 90

def isLowerAlphaChar (c : Char) : Bool :=
  97 ≤ c.toNat && c.toNat ≤ 122

def isWordChar (c : Char) : Bool :=
  isUpperChar c || isLowerAlphaChar c || isDigitChar c || c.toNat = 95

/-- The characters kept by `re.sub(r'[^\w\s]', '', text)`. -/
def keepChar (c : Char) : Bool :=
  isWordChar c || isSpaceChar c

def toLowerChar (c : Char) : Char :=
  if isUpperChar c then Char.ofNat (c.toNat + 32) else c

/-! ### Whitespace collapsing and stripping

`collapseAux` models `re.sub(r'\s+', ' ', text)`: each maximal run of
whitespace becomes a single ASCII space.  The boolean records whether the
previous character was part of a whitespace run. -/

def collapseAux : Bool → List Char → List Char
  | _, [] => []
  | prevSpace, c :: rest =>
    if isSpaceChar c then
      if prevSpace then collapseAux true rest
      else ' ' :: collapseAux true rest
    else c :: collapseAux false rest

def stripLead (l : List Char) : List Char :=
  l.dropWhile isSpaceChar

def stripTrail (l : List Char) : List Char :=
  (l.reverse.dropWhile isSpaceChar).reverse

/-- Models Python `str.strip()` (with the ASCII whitespace class). -/
def stripBoth (l : List Char) : List Char :=
  stripTrail (stripLead l)

/-! ### Number parsing

`digitsToNat` reads a digit string; `parsePyFloat` models `float(s)` on
decimal literals: optional sign, then `digits`, `digits.digits?`,
`.digits`, each followed by an optional exponent `e|E sign? digits`,
with nothing left over. -/

def digitsToNat (ds : List Char) : Nat :=
  ds.foldl (fun a c => 10 * a + (c.toNat - 48)) 0

def parseSign : List Char → Bool × List Char
  | '-' :: r => (true, r)
  | '+' :: r => (false, r)
  | l => (false, l)

/-- Consume an optional leading `+` or `-` (regex `[-+]?`), returning the
consumed characters and the remainder. -/
def splitSign : List Char → List Char × List Char
  | '+' :: r => (['+'], r)
  | '-' :: r => (['-'], r)
  | l => ([], l)

/-- Consume an optional leading `-` (regex `-?`). -/
def splitNeg : List Char → List Char × List Char
  | '-' :: r => (['-'], r)
  | l => ([], l)

/-- Consume an optional leading `.` (regex `\.?`). -/
def splitDot : List Char → List Char × List Char
  | '.' :: r => (['.'], r)
  | l => ([], l)

def parseExpPart : List Char → Option Int
  | [] => some 0
  | c :: r =>
    if c = 'e' ∨ c = 'E' then
      let s := parseSign r
      let ds := s.2.takeWhile isDigitChar
      let rest := s.2.dropWhile isDigitChar
      if ds = [] ∨ rest ≠ [] then none
      else some (if s.1 then -(digitsToNat ds : Int) else (digitsToNat ds : Int))
    else none

def parseFloatBody (l : List Char) : Option ℚ :=
  let ip := l.takeWhile isDigitChar
  let r1 := l.dropWhile isDigitChar
  let dp := splitDot r1
  if dp.1 = [] then
    if ip = [] then none
    else (parseExpPart r1).map (fun e => (digitsToNat ip : ℚ) * (10 : ℚ) ^ e)
  else
    let fp := dp.2.takeWhile isDigitChar
    let r3 := dp.2.dropWhile isDigitChar
    if ip = [] ∧ fp = [] then none
    else (parseExpPart r3).map (fun e =>
      ((digitsToNat ip : ℚ) + (digitsToNat fp : ℚ) / (10 : ℚ) ^ fp.length) * (10 : ℚ) ^ e)

def parsePyFloat (l : List Char) : Option ℚ :=
  let s := parseSign l
  (parseFloatBody s.2).map (fun q => if s.1 then -q else q)

/-! ### The number-finding regex

`matchNumberAt l` models attempting the regex
`-?\d+\.?\d*(?:[eE][-+]?\d+)?` at the first position of `l` (greedy, with
the backtracking that drops an incomplete exponent), returning the matched
characters.  `findFirstNumber` models `re.findall(...)[0]`: the match at
the leftmost position where one exists. -/

def matchExpAt (l : List Char) : List Char :=
  match l with
  | e :: r =>
    if e = 'e' ∨ e = 'E' then
      let sg := splitSign r
      let eds := sg.2.takeWhile isDigitChar
      if eds = [] then [] else e :: (sg.1 ++ eds)
    else []
  | [] => []

def matchAfterSign (sgn l1 : List Char) : Option (List Char) :=
  let ds := l1.takeWhile isDigitChar
  let l2 := l1.dropWhile isDigitChar
  if ds = [] then none
  else
    let dp := splitDot l2
    let ds2 := dp.2.takeWhile isDigitChar
    let l4 := dp.2.dropWhile isDigitChar
    some (sgn ++ ds ++ dp.1 ++ ds2 ++ matchExpAt l4)

def matchNumberAt (l : List Char) : Option (List Char) :=
  let sp := splitNeg l
  matchAfterSign sp.1 sp.2

def findFirstNumber : List Char → Option (List Char)
  | [] => none
  | c :: rest =>
    match matchNumberAt (c :: rest) with
    | some tok => some tok
    | none => findFirstNumber rest

/-! ### The scorer -/

structure GAIAScorer where
  numerical_tolerance : ℚ

namespace GAIAScorer

def _exact_match (predicted gold : List Char) : Bool :=
  predicted == gold

def _normalize (text : List Char) : List Char :=
  stripBoth (collapseAux false ((text.map toLowerChar).filter keepChar))

def _normalized_match (predicted gold : List Char) : Bool :=
  _normalize predicted == _normalize gold

/-- Models `GAIAScorer._extract_number`: try `float(text.strip())`, else the
first regex match in `text` (whose `float` conversion, attempted under
`try/except`, in fact always succeeds), else `None`. -/
def _extract_number (text : List Char) : Option ℚ :=
  match parsePyFloat (stripBoth text) with
  | some v => some v
  | none =>
    match findFirstNumber text with
    | some tok =>
      match parsePyFloat tok with
      | some v => some v
      | none => none
    | none => none

def _numerical_match (self : GAIAScorer) (predicted gold : List Char) : ℚ :=
  match _extract_number predicted, _extract_number gold with
  | some predicted_num, some gold_num =>
    if gold_num = 0 then
      if predicted_num = 0 then 1 else 0
    else
      if |predicted_num - gold_num| / |gold_num| ≤ self.numerical_tolerance then 1
      else 0
  | _, _ => 0

def score (self : GAIAScorer) (predicted gold : List Char) : ℚ × Bool × Bool :=
  if _exact_match predicted gold then (1, true, true)
  else if _normalized_match predicted gold then (1, false, true)
  else
    let numerical_score := self._numerical_match predicted gold
    if numerical_score > 0 then (numerical_score, false, false)
    else (0, false, false)

def batch_score (self : GAIAScorer) (predictions golds : List (List Char)) :
    Except String (List (ℚ × Bool × Bool)) :=
  if predictions.length ≠ golds.length then
    Except.error ("Predictions and golds must have same length: " ++
      Nat.repr predictions.length ++ " != " ++ Nat.repr golds.length)
  else
    Except.ok ((predictions.zip golds).map (fun pg => self.score pg.1 pg.2))

end GAIAScorer

/-! ### Specification-side rendering of normalization

The spec describes steps (c) and (d) of normalization as "collapse each
maximal run of whitespace into a single ASCII space, then strip leading and
trailing whitespace".  An equivalent independent rendering: cut the string
into its maximal runs of non-whitespace characters (`wordsOf`) and rejoin
them with single ASCII spaces (`joinWords`).  `normalizeSpec` is the spec's
normalization built from these pieces. -/

def wordsOf : List Char → List (List Char)
  | [] => []
  | c :: rest =>
    if isSpaceChar c then wordsOf rest
    else (c :: rest.takeWhile (fun x => ! isSpaceChar x)) ::
      wordsOf (rest.dropWhile (fun x => ! isSpaceChar x))
termination_by l => l.length
decreasing_by
  · simp only [List.length_cons]
    omega
  · simp only [List.length_cons]
    exact Nat.lt_succ_of_le (List.dropWhile_sublist _).length_le

def joinWords : List (List Char) → List Char
  | [] => []
  | [w] => w
  | w :: ws => w ++ ' ' :: joinWords ws

def normalizeSpec (text : List Char) : List Char :=
  joinWords (wordsOf ((text.map toLowerChar).filter keepChar))

/-! ### Totality instrumentation

`qdivChecked` makes the one potentially throwing operation of the scorer
(division, which in Python raises `ZeroDivisionError` on a zero divisor)
explicitly fallible; `numericalMatchChecked` and `scoreChecked` re-run the
scorer's control flow with that fallible division.  The scorer is total iff
the checked run always produces `some`. -/

def qdivChecked (a b : ℚ) : Option ℚ :=
  if b = 0 then none else some (a / b)

def GAIAScorer.numericalMatchChecked (self : GAIAScorer) (predicted gold : List Char) :
    Option ℚ :=
  match GAIAScorer._extract_number predicted, GAIAScorer._extract_number gold with
  | some predicted_num, some gold_num =>
    if gold_num = 0 then some (if predicted_num = 0 then 1 else 0)
    else (qdivChecked |predicted_num - gold_num| |gold_num|).map
      (fun relative_error => if relative_error ≤ self.numerical_tolerance then 1 else 0)
  | _, _ => some 0

def GAIAScorer.scoreChecked (self : GAIAScorer) (predicted gold : List Char) :
    Option (ℚ × Bool × Bool) :=
  if GAIAScorer._exact_match predicted gold then some (1, true, true)
  else if GAIAScorer._normalized_match predicted gold then some (1, false, true)
  else (self.numericalMatchChecked predicted gold).map
    (fun numerical_score =>
      if numerical_score > 0 then (numerical_score, false, false)
      else (0, false, false))

/-! ## Character-level lemmas -/

theorem toNat_ofNat_valid (n : Nat) (h : n < 55296) : (Char.ofNat n).toNat = n := by
  rw [Char.ofNat, dif_pos (Or.inl h)]
  rfl

theorem isUpperChar_iff (c : Char) : isUpperChar c = true ↔ 65 ≤ c.toNat ∧ c.toNat ≤ 90 := by
  simp [isUpperChar]

theorem toLowerChar_toNat_of_upper (c : Char) (h : isUpperChar c = true) :
    (toLowerChar c).toNat = c.toNat + 32 := by
  unfold toLowerChar
  rw [if_pos h]
  have hb := (isUpperChar_iff c).mp h
  exact toNat_ofNat_valid _ (by omega)

theorem toLowerChar_eq_self_of_not_upper (c : Char) (h : isUpperChar c = false) :
    toLowerChar c = c := by
  unfold toLowerChar
  rw [if_neg (by simp [h])]

theorem toLowerChar_idem (c : Char) : toLowerChar (toLowerChar c) = toLowerChar c := by
  cases h : isUpperChar c with
  | true =>
    have h2 : isUpperChar (toLowerChar c) = false := by
      have hb := (isUpperChar_iff c).mp h
      have ht := toLowerChar_toNat_of_upper c h
      rw [← Bool.not_eq_true]
      intro hcon
      have := (isUpperChar_iff (toLowerChar c)).mp hcon
      omega
    exact toLowerChar_eq_self_of_not_upper _ h2
  | false =>
    rw [toLowerChar_eq_self_of_not_upper c h, toLowerChar_eq_self_of_not_upper c h]

theorem isSpaceChar_space : isSpaceChar ' ' = true := by decide

/-! ## List helpers -/

theorem dropWhile_eq_nil_of_all (p : Char → Bool) (l : List Char)
    (h : ∀ c ∈ l, p c = true) : l.dropWhile p = [] := by
  induction l with
  | nil => rfl
  | cons c r ih =>
    rw [List.dropWhile_cons_of_pos (h c (by simp))]
    exact ih (fun x hx => h x (by simp [hx]))

theorem takeWhile_eq_self_of_all (p : Char → Bool) (l : List Char)
    (h : ∀ c ∈ l, p c = true) : l.takeWhile p = l := by
  induction l with
  | nil => rfl
  | cons c r ih =>
    rw [List.takeWhile_cons_of_pos (h c (by simp))]
    exact congrArg (c :: ·) (ih (fun x hx => h x (by simp [hx])))

theorem map_eq_self_of_fixed (f : Char → Char) (l : List Char) (h : ∀ c ∈ l, f c = c) :
    l.map f = l := by
  induction l with
  | nil => rfl
  | cons c r ih =>
    simp only [List.map_cons, h c (by simp)]
    exact congrArg (c :: ·) (ih (fun x hx => h x (by simp [hx])))

/-! ## Whitespace collapsing versus word splitting -/

theorem collapseAux_true_eq (l : List Char) :
    collapseAux true l = collapseAux false (l.dropWhile isSpaceChar) := by
  induction l with
  | nil => rfl
  | cons c r ih =>
    by_cases h : isSpaceChar c
    · simp [collapseAux, h, List.dropWhile_cons, ih]
    · simp [collapseAux, h, List.dropWhile_cons]

theorem collapseAux_nonspace_append (w r : List Char)
    (hw : ∀ c ∈ w, isSpaceChar c = false) :
    collapseAux false (w ++ r) = w ++ collapseAux false r := by
  induction w with
  | nil => rfl
  | cons c t ih =>
    have hc := hw c (by simp)
    simp only [List.cons_append, collapseAux, hc]
    simp only [Bool.false_eq_true, if_false]
    exact congrArg (c :: ·) (ih (fun x hx => hw x (by simp [hx])))

theorem stripLead_collapseAux_true (l : List Char) :
    stripLead (collapseAux true l) = collapseAux true l := by
  induction l with
  | nil => rfl
  | cons c r ih =>
    by_cases h : isSpaceChar c
    · simp [collapseAux, h, ih]
    · simp [collapseAux, h, stripLead, List.dropWhile_cons, h]

theorem stripLead_collapseAux (l : List Char) :
    stripLead (collapseAux false l) = collapseAux false (stripLead l) := by
  cases l with
  | nil => rfl
  | cons c r =>
    by_cases h : isSpaceChar c
    · show stripLead (collapseAux false (c :: r)) =
        collapseAux false ((c :: r).dropWhile isSpaceChar)
      rw [List.dropWhile_cons_of_pos h]
      have h1 : collapseAux false (c :: r) = ' ' :: collapseAux true r := by
        simp [collapseAux, h]
      rw [h1]
      have h2 : stripLead (' ' :: collapseAux true r) = stripLead (collapseAux true r) := by
        simp [stripLead, List.dropWhile_cons, isSpaceChar_space]
      rw [h2, stripLead_collapseAux_true, collapseAux_true_eq]
    · show stripLead (collapseAux false (c :: r)) =
        collapseAux false ((c :: r).dropWhile isSpaceChar)
      rw [List.dropWhile_cons_of_neg (by simpa using h)]
      have h1 : collapseAux false (c :: r) = c :: collapseAux false r := by
        simp [collapseAux, h]
      rw [h1]
      simp [stripLead, List.dropWhile_cons, h, h1]

theorem stripTrail_all_nonspace (a : List Char) (h : ∀ c ∈ a, isSpaceChar c = false) :
    stripTrail a = a := by
  unfold stripTrail
  have : a.reverse.dropWhile isSpaceChar = a.reverse := by
    cases ha : a.reverse with
    | nil => rfl
    | cons x xs =>
      rw [List.dropWhile_cons_of_neg]
      have hx : x ∈ a := by
        have : x ∈ a.reverse := by rw [ha]; simp
        simpa using this
      simp [h x hx]
  rw [this, List.reverse_reverse]

theorem stripTrail_append_space (a : List Char) :
    stripTrail (a ++ [' ']) = stripTrail a := by
  unfold stripTrail
  rw [List.reverse_append]
  simp [List.dropWhile_cons, isSpaceChar_space]

theorem stripTrail_append_of_ne_nil (u A : List Char) (h : stripTrail A ≠ []) :
    stripTrail (u ++ A) = u ++ stripTrail A := by
  unfold stripTrail at *
  rw [List.reverse_append, List.dropWhile_append]
  have hne : (A.reverse.dropWhile isSpaceChar).isEmpty = false := by
    cases hd : A.reverse.dropWhile isSpaceChar with
    | nil => rw [hd] at h; simp at h
    | cons x xs => rfl
  rw [hne]
  simp [List.reverse_append]

theorem wordsOf_cons_space (c : Char) (r : List Char) (h : isSpaceChar c = true) :
    wordsOf (c :: r) = wordsOf r := by
  rw [wordsOf]
  simp [h]

theorem wordsOf_cons_nonspace (c : Char) (r : List Char) (h : isSpaceChar c = false) :
    wordsOf (c :: r) =
      (c :: r.takeWhile (fun x => ! isSpaceChar x)) ::
        wordsOf (r.dropWhile (fun x => ! isSpaceChar x)) := by
  rw [wordsOf]
  simp [h]

theorem wordsOf_dropWhile_space (l : List Char) :
    wordsOf (l.dropWhile isSpaceChar) = wordsOf l := by
  induction l with
  | nil => rfl
  | cons c r ih =>
    by_cases h : isSpaceChar c
    · rw [List.dropWhile_cons_of_pos h, ih, wordsOf_cons_space c r h]
    · rw [List.dropWhile_cons_of_neg (by simpa using h)]

theorem wordsOf_facts (l : List Char) :
    ∀ w ∈ wordsOf l, w ≠ [] ∧ ∀ c ∈ w, isSpaceChar c = false := by
  induction l using wordsOf.induct with
  | case1 => simp [wordsOf]
  | case2 c rest hspace ih =>
    rw [wordsOf_cons_space c rest hspace]
    exact ih
  | case3 c rest hspace ih =>
    rw [wordsOf_cons_nonspace c rest (by simpa using hspace)]
    intro w hw
    rcases List.mem_cons.mp hw with rfl | hw2
    · refine ⟨by simp, ?_⟩
      intro x hx
      rcases List.mem_cons.mp hx with rfl | hx2
      · simpa using hspace
      · have := List.mem_takeWhile_imp hx2
        simpa using this
    · exact ih w hw2

theorem joinWords_cons_ne_nil (w : List Char) (ws : List (List Char)) (hw : w ≠ []) :
    joinWords (w :: ws) ≠ [] := by
  cases ws with
  | nil => simpa [joinWords] using hw
  | cons w2 ws2 =>
    show w ++ ' ' :: joinWords (w2 :: ws2) ≠ []
    simp

theorem joinWords_cons_of_ne_nil (w : List Char) (ws : List (List Char)) (h : ws ≠ []) :
    joinWords (w :: ws) = w ++ ' ' :: joinWords ws := by
  cases ws with
  | nil => exact absurd rfl h
  | cons w2 ws2 => rfl

theorem head_dropWhile_space (rest : List Char) (x : Char) (d2 : List Char)
    (hd : rest.dropWhile (fun c => ! isSpaceChar c) = x :: d2) :
    isSpaceChar x = true := by
  have := List.head?_dropWhile_not (fun c => ! isSpaceChar c) rest
  rw [hd] at this
  simp at this
  exact this

theorem stripTrail_collapse_words (l : List Char) :
    stripTrail (collapseAux false (l.dropWhile isSpaceChar)) = joinWords (wordsOf l) := by
  induction l using wordsOf.induct with
  | case1 =>
    rw [wordsOf]
    rfl
  | case2 c rest hspace ih =>
    rw [List.dropWhile_cons_of_pos hspace, wordsOf_cons_space c rest hspace]
    exact ih
  | case3 c rest hspace ih =>
    have hcf : isSpaceChar c = false := by simpa using hspace
    set w := c :: rest.takeWhile (fun x => ! isSpaceChar x) with hw_def
    set d := rest.dropWhile (fun x => ! isSpaceChar x) with hd_def
    have hsplit : c :: rest = w ++ d := by
      rw [hw_def, hd_def]
      simp [List.takeWhile_append_dropWhile]
    have hw_nonspace : ∀ x ∈ w, isSpaceChar x = false := by
      intro x hx
      rcases List.mem_cons.mp hx with rfl | hx2
      · exact hcf
      · have := List.mem_takeWhile_imp hx2
        simpa using this
    rw [List.dropWhile_cons_of_neg (by simpa using hspace)]
    rw [wordsOf_cons_nonspace c rest hcf, ← hw_def, ← hd_def, hsplit]
    rw [collapseAux_nonspace_append w d hw_nonspace]
    cases hd : d with
    | nil =>
      rw [wordsOf]
      show stripTrail (w ++ []) = joinWords [w]
      rw [List.append_nil, stripTrail_all_nonspace w hw_nonspace]
      rfl
    | cons x d2 =>
      rw [hd] at ih
      have hx : isSpaceChar x = true := head_dropWhile_space rest x d2 (by rw [← hd_def]; exact hd)
      have hcd : collapseAux false (x :: d2) = ' ' :: collapseAux false (d2.dropWhile isSpaceChar) := by
        have h1 : collapseAux false (x :: d2) = ' ' :: collapseAux true d2 := by
          simp [collapseAux, hx]
        rw [h1, collapseAux_true_eq]
      rw [hcd, wordsOf_cons_space x d2 hx]
      rw [List.dropWhile_cons_of_pos hx, wordsOf_cons_space x d2 hx] at ih
      cases hD : d2.dropWhile isSpaceChar with
      | nil =>
        rw [hD] at ih
        have hwd : wordsOf d2 = ([] : List (List Char)) := by
          rw [← wordsOf_dropWhile_space d2, hD, wordsOf]
        rw [hwd]
        show stripTrail (w ++ [' ']) = joinWords [w]
        rw [stripTrail_append_space, stripTrail_all_nonspace w hw_nonspace]
        rfl
      | cons y D2 =>
        rw [hD] at ih
        have hy : isSpaceChar y = false := by
          have := List.head?_dropWhile_not isSpaceChar d2
          rw [hD] at this
          simpa using this
        have hwd_ne : wordsOf d2 ≠ [] := by
          rw [← wordsOf_dropWhile_space d2, hD, wordsOf_cons_nonspace y D2 hy]
          simp
        have hjw_ne : joinWords (wordsOf d2) ≠ [] := by
          cases hwords : wordsOf d2 with
          | nil => exact absurd hwords hwd_ne
          | cons w0 ws0 =>
            have hw0 : w0 ≠ [] := (wordsOf_facts d2 w0 (by rw [hwords]; simp)).1
            exact joinWords_cons_ne_nil w0 ws0 hw0
        calc stripTrail (w ++ ' ' :: collapseAux false (y :: D2))
            = stripTrail ((w ++ [' ']) ++ collapseAux false (y :: D2)) := by
              simp
          _ = (w ++ [' ']) ++ stripTrail (collapseAux false (y :: D2)) := by
              apply stripTrail_append_of_ne_nil
              rw [ih]
              exact hjw_ne
          _ = w ++ ' ' :: joinWords (wordsOf d2) := by rw [ih]; simp
          _ = joinWords (w :: wordsOf d2) := (joinWords_cons_of_ne_nil w (wordsOf d2) hwd_ne).symm

theorem normalize_eq_spec (text : List Char) :
    GAIAScorer._normalize text = normalizeSpec text := by
  unfold GAIAScorer._normalize normalizeSpec stripBoth
  rw [stripLead_collapseAux]
  show stripTrail (collapseAux false
    (((text.map toLowerChar).filter keepChar).dropWhile isSpaceChar)) = _
  rw [stripTrail_collapse_words]

/-! ## Idempotence of normalization -/

theorem mem_joinWords (ws : List (List Char)) (c : Char) (hc : c ∈ joinWords ws) :
    c = ' ' ∨ ∃ w ∈ ws, c ∈ w := by
  induction ws with
  | nil => simp [joinWords] at hc
  | cons w ws' ih =>
    cases ws' with
    | nil =>
      right
      exact ⟨w, by simp, by simpa [joinWords] using hc⟩
    | cons w2 ws2 =>
      rw [joinWords_cons_of_ne_nil w (w2 :: ws2) (by simp)] at hc
      rcases List.mem_append.mp hc with h1 | h2
      · right; exact ⟨w, by simp, h1⟩
      · rcases List.mem_cons.mp h2 with rfl | h3
        · left; rfl
        · rcases ih h3 with h4 | ⟨w3, hw3, hc3⟩
          · left; exact h4
          · right; exact ⟨w3, by simp [hw3], hc3⟩

theorem mem_wordsOf_mem (l : List Char) (w : List Char) (hw : w ∈ wordsOf l)
    (c : Char) (hc : c ∈ w) : c ∈ l := by
  induction l using wordsOf.induct with
  | case1 => simp [wordsOf] at hw
  | case2 c0 rest hspace ih =>
    rw [wordsOf_cons_space c0 rest hspace] at hw
    exact List.mem_cons_of_mem c0 (ih hw)
  | case3 c0 rest hspace ih =>
    rw [wordsOf_cons_nonspace c0 rest (by simpa using hspace)] at hw
    rcases List.mem_cons.mp hw with rfl | hw2
    · rcases List.mem_cons.mp hc with rfl | hc2
      · simp
      · exact List.mem_cons_of_mem c0 ((List.takeWhile_sublist _).mem hc2)
    · have := ih hw2
      exact List.mem_cons_of_mem c0 ((List.dropWhile_sublist _).mem this)

theorem wordsOf_joinWords (ws : List (List Char))
    (h : ∀ w ∈ ws, w ≠ [] ∧ ∀ c ∈ w, isSpaceChar c = false) :
    wordsOf (joinWords ws) = ws := by
  induction ws with
  | nil => rw [joinWords, wordsOf]
  | cons w ws' ih =>
    obtain ⟨hne, hnsp⟩ := h w (by simp)
    cases hw : w with
    | nil => exact absurd hw hne
    | cons c t =>
      have hc : isSpaceChar c = false := hnsp c (by simp [hw])
      have ht : ∀ x ∈ t, (fun x => ! isSpaceChar x) x = true := by
        intro x hx
        simp [hnsp x (by simp [hw, hx])]
      cases ws' with
      | nil =>
        have hj : joinWords [c :: t] = c :: t := rfl
        rw [hj, wordsOf_cons_nonspace c t hc]
        rw [takeWhile_eq_self_of_all _ t ht, dropWhile_eq_nil_of_all _ t ht, wordsOf]
      | cons w2 ws2 =>
        rw [joinWords_cons_of_ne_nil (c :: t) (w2 :: ws2) (by simp)]
        show wordsOf (c :: (t ++ ' ' :: joinWords (w2 :: ws2))) = (c :: t) :: w2 :: ws2
        rw [wordsOf_cons_nonspace c _ hc]
        have htake : (t ++ ' ' :: joinWords (w2 :: ws2)).takeWhile
            (fun x => ! isSpaceChar x) = t := by
          rw [List.takeWhile_append_of_pos ht,
            List.takeWhile_cons_of_neg (by simp [isSpaceChar_space])]
          simp
        have hdrop : (t ++ ' ' :: joinWords (w2 :: ws2)).dropWhile (fun x => ! isSpaceChar x) =
            ' ' :: joinWords (w2 :: ws2) := by
          rw [List.dropWhile_append_of_pos ht,
            List.dropWhile_cons_of_neg (by simp [isSpaceChar_space])]
        rw [htake, hdrop, wordsOf_cons_space _ _ isSpaceChar_space]
        rw [ih (fun x hx => h x (by simp [hx]))]

theorem mem_normalized_fixed (t : List Char) (c : Char)
    (hc : c ∈ joinWords (wordsOf ((t.map toLowerChar).filter keepChar))) :
    toLowerChar c = c ∧ keepChar c = true := by
  rcases mem_joinWords _ c hc with rfl | ⟨w, hw, hcw⟩
  · exact ⟨by decide, by decide⟩
  · have hcf : c ∈ (t.map toLowerChar).filter keepChar := mem_wordsOf_mem _ w hw c hcw
    obtain ⟨hcm, hkeep⟩ := List.mem_filter.mp hcf
    obtain ⟨x, _, hx⟩ := List.mem_map.mp hcm
    refine ⟨?_, hkeep⟩
    rw [← hx]
    exact toLowerChar_idem x

theorem normalize_idem_aux (t : List Char) :
    GAIAScorer._normalize (GAIAScorer._normalize t) = GAIAScorer._normalize t := by
  rw [normalize_eq_spec t, normalize_eq_spec (normalizeSpec t)]
  show normalizeSpec (joinWords (wordsOf ((t.map toLowerChar).filter keepChar))) = _
  unfold normalizeSpec
  rw [map_eq_self_of_fixed _ _ (fun c hc => (mem_normalized_fixed t c hc).1)]
  rw [List.filter_eq_self.mpr (fun c hc => (mem_normalized_fixed t c hc).2)]
  rw [wordsOf_joinWords _ (wordsOf_facts _)]

/-! ## Scorer-level lemmas -/

theorem numerical_match_cases (sc : GAIAScorer) (p g : List Char) :
    sc._numerical_match p g = 0 ∨ sc._numerical_match p g = 1 := by
  unfold GAIAScorer._numerical_match
  cases GAIAScorer._extract_number p <;> cases GAIAScorer._extract_number g
  all_goals simp
  all_goals split_ifs
  all_goals simp

theorem score_eq (sc : GAIAScorer) (p g : List Char) :
    sc.score p g =
      if p = g then (1, true, true)
      else if GAIAScorer._normalize p = GAIAScorer._normalize g then (1, false, true)
      else if sc._numerical_match p g > 0 then (1, false, false)
      else (0, false, false) := by
  unfold GAIAScorer.score GAIAScorer._exact_match GAIAScorer._normalized_match
  rcases numerical_match_cases sc p g with h | h <;>
    simp [h, beq_iff_eq]

theorem numericalMatchChecked_eq (sc : GAIAScorer) (p g : List Char) :
    sc.numericalMatchChecked p g = some (sc._numerical_match p g) := by
  unfold GAIAScorer.numericalMatchChecked GAIAScorer._numerical_match
  cases GAIAScorer._extract_number p <;> cases GAIAScorer._extract_number g
  all_goals simp [qdivChecked]
  rename_i pn gn
  by_cases hg : gn = 0
  · simp [hg]
  · simp [hg, abs_eq_zero]

theorem scoreChecked_eq_some (sc : GAIAScorer) (p g : List Char) :
    sc.scoreChecked p g = some (sc.score p g) := by
  unfold GAIAScorer.scoreChecked GAIAScorer.score
  rw [numericalMatchChecked_eq]
  by_cases h1 : GAIAScorer._exact_match p g
  · simp [h1]
  · by_cases h2 : GAIAScorer._normalized_match p g
    · simp [h1, h2]
    · simp [h1, h2]

theorem zip_map_eq_zipWith (sc : GAIAScorer) (ps gs : List (List Char)) :
    (ps.zip gs).map (fun pg => sc.score pg.1 pg.2) = List.zipWith sc.score ps gs := by
  induction ps generalizing gs with
  | nil => simp
  | cons p pt ih =>
    cases gs with
    | nil => simp
    | cons g gt => simp [ih]

/-! ## Lemmas about the number parsers -/

theorem splitSign_other (c : Char) (t : List Char) (h1 : c ≠ '+') (h2 : c ≠ '-') :
    splitSign (c :: t) = ([], c :: t) := by
  unfold splitSign
  split
  · rename_i heq
    injection heq with h3 h4
    exact absurd h3 h1
  · rename_i heq
    injection heq with h3 h4
    exact absurd h3 h2
  · rfl

theorem splitNeg_other (c : Char) (t : List Char) (h2 : c ≠ '-') :
    splitNeg (c :: t) = ([], c :: t) := by
  unfold splitNeg
  split
  · rename_i heq
    injection heq with h3 h4
    exact absurd h3 h2
  · rfl

theorem splitDot_other (c : Char) (t : List Char) (h2 : c ≠ '.') :
    splitDot (c :: t) = ([], c :: t) := by
  unfold splitDot
  split
  · rename_i heq
    injection heq with h3 h4
    exact absurd h3 h2
  · rfl

theorem parseSign_other (c : Char) (t : List Char) (h1 : c ≠ '-') (h2 : c ≠ '+') :
    parseSign (c :: t) = (false, c :: t) := by
  unfold parseSign
  split
  · rename_i heq
    injection heq with h3 h4
    exact absurd h3 h1
  · rename_i heq
    injection heq with h3 h4
    exact absurd h3 h2
  · rfl

theorem digitChar_ne (c : Char) (hd : isDigitChar c = true) :
    c ≠ '-' ∧ c ≠ '+' ∧ c ≠ '.' ∧ c ≠ 'e' ∧ c ≠ 'E' := by
  refine ⟨?_, ?_, ?_, ?_, ?_⟩
  all_goals intro h
  all_goals rw [h] at hd
  all_goals exact absurd hd (by decide)

theorem splitSign_cases (r : List Char) :
    splitSign r = ([], r) ∨ (∃ rr, r = '+' :: rr ∧ splitSign r = (['+'], rr)) ∨
      (∃ rr, r = '-' :: rr ∧ splitSign r = (['-'], rr)) := by
  cases r with
  | nil => left; rfl
  | cons c t =>
    by_cases h1 : c = '+'
    · subst h1; right; left; exact ⟨t, rfl, rfl⟩
    · by_cases h2 : c = '-'
      · subst h2; right; right; exact ⟨t, rfl, rfl⟩
      · left; exact splitSign_other c t h1 h2

theorem splitNeg_cases (l : List Char) :
    splitNeg l = ([], l) ∨ ∃ r, l = '-' :: r ∧ splitNeg l = (['-'], r) := by
  cases l with
  | nil => left; rfl
  | cons c t =>
    by_cases h2 : c = '-'
    · subst h2; right; exact ⟨t, rfl, rfl⟩
    · left; exact splitNeg_other c t h2

theorem splitDot_cases (l : List Char) :
    splitDot l = ([], l) ∨ ∃ r, l = '.' :: r ∧ splitDot l = (['.'], r) := by
  cases l with
  | nil => left; rfl
  | cons c t =>
    by_cases h2 : c = '.'
    · subst h2; right; exact ⟨t, rfl, rfl⟩
    · left; exact splitDot_other c t h2

theorem takeWhile_dropWhile_nil (p : Char → Bool) (l : List Char) :
    (l.dropWhile p).takeWhile p = [] := by
  cases hd : l.dropWhile p with
  | nil => rfl
  | cons x xs =>
    have hx : p x = false := by
      have := List.head?_dropWhile_not p l
      rw [hd] at this
      simpa using this
    rw [List.takeWhile_cons_of_neg (by simp [hx])]

theorem parseExpPart_cons (c : Char) (r : List Char) :
    parseExpPart (c :: r) =
      if c = 'e' ∨ c = 'E' then
        if (parseSign r).2.takeWhile isDigitChar = [] ∨
            (parseSign r).2.dropWhile isDigitChar ≠ [] then none
        else some (if (parseSign r).1
          then -(digitsToNat ((parseSign r).2.takeWhile isDigitChar) : Int)
          else (digitsToNat ((parseSign r).2.takeWhile isDigitChar) : Int))
      else none := rfl

theorem parseExpPart_exists (ex : List Char)
    (h : ex = [] ∨ ∃ e sg eds, (e = 'e' ∨ e = 'E') ∧
      (sg = [] ∨ sg = ['+'] ∨ sg = ['-']) ∧ eds ≠ [] ∧
      (∀ c ∈ eds, isDigitChar c = true) ∧ ex = e :: (sg ++ eds)) :
    ∃ w, parseExpPart ex = some w := by
  rcases h with rfl | ⟨e, sg, eds, he, hsg, hne, hall, rfl⟩
  · exact ⟨0, rfl⟩
  · have hps : parseSign (sg ++ eds) = (false, eds) ∨ parseSign (sg ++ eds) = (true, eds) := by
      rcases hsg with rfl | rfl | rfl
      · cases eds with
        | nil => exact absurd rfl hne
        | cons d t =>
          have hd := hall d (by simp)
          obtain ⟨h1, h2, _⟩ := digitChar_ne d hd
          left
          show parseSign (d :: t) = (false, d :: t)
          exact parseSign_other d t h1 h2
      · left; rfl
      · right; rfl
    have htake : eds.takeWhile isDigitChar = eds := takeWhile_eq_self_of_all _ _ hall
    have hdrop : eds.dropWhile isDigitChar = [] := dropWhile_eq_nil_of_all _ _ hall
    rw [parseExpPart_cons, if_pos he]
    rcases hps with hps | hps
    all_goals rw [hps]
    all_goals simp only [htake, hdrop]
    all_goals simp [hne]

theorem matchExpAt_cons (e : Char) (r : List Char) :
    matchExpAt (e :: r) =
      if e = 'e' ∨ e = 'E' then
        if (splitSign r).2.takeWhile isDigitChar = [] then []
        else e :: ((splitSign r).1 ++ (splitSign r).2.takeWhile isDigitChar)
      else [] := rfl

theorem matchExpAt_shape (l : List Char) :
    matchExpAt l = [] ∨ ∃ e sg eds, (e = 'e' ∨ e = 'E') ∧
      (sg = [] ∨ sg = ['+'] ∨ sg = ['-']) ∧ eds ≠ [] ∧
      (∀ c ∈ eds, isDigitChar c = true) ∧ matchExpAt l = e :: (sg ++ eds) := by
  cases l with
  | nil => left; rfl
  | cons e r =>
    by_cases he : e = 'e' ∨ e = 'E'
    · rw [matchExpAt_cons, if_pos he]
      by_cases heds : (splitSign r).2.takeWhile isDigitChar = []
      · left; rw [if_pos heds]
      · right
        refine ⟨e, (splitSign r).1, (splitSign r).2.takeWhile isDigitChar, he, ?_, heds,
          fun c hc => List.mem_takeWhile_imp hc, by rw [if_neg heds]⟩
        rcases splitSign_cases r with h | ⟨rr, _, h⟩ | ⟨rr, _, h⟩
        all_goals rw [h]
        · left; rfl
        · right; left; rfl
        · right; right; rfl
    · left
      rw [matchExpAt_cons, if_neg he]

theorem matchAfterSign_eq (sgn l1 : List Char) :
    matchAfterSign sgn l1 =
      if l1.takeWhile isDigitChar = [] then none
      else some (sgn ++ l1.takeWhile isDigitChar ++
        (splitDot (l1.dropWhile isDigitChar)).1 ++
        (splitDot (l1.dropWhile isDigitChar)).2.takeWhile isDigitChar ++
        matchExpAt ((splitDot (l1.dropWhile isDigitChar)).2.dropWhile isDigitChar)) := rfl

theorem parseFloatBody_eq (l : List Char) :
    parseFloatBody l =
      if (splitDot (l.dropWhile isDigitChar)).1 = [] then
        if l.takeWhile isDigitChar = [] then none
        else (parseExpPart (l.dropWhile isDigitChar)).map
          (fun e => (digitsToNat (l.takeWhile isDigitChar) : ℚ) * (10 : ℚ) ^ e)
      else
        if l.takeWhile isDigitChar = [] ∧
            (splitDot (l.dropWhile isDigitChar)).2.takeWhile isDigitChar = [] then none
        else (parseExpPart ((splitDot (l.dropWhile isDigitChar)).2.dropWhile isDigitChar)).map
          (fun e => ((digitsToNat (l.takeWhile isDigitChar) : ℚ) +
            (digitsToNat ((splitDot (l.dropWhile isDigitChar)).2.takeWhile isDigitChar) : ℚ) /
              (10 : ℚ) ^ ((splitDot (l.dropWhile isDigitChar)).2.takeWhile isDigitChar).length) *
            (10 : ℚ) ^ e) := rfl

theorem parsePyFloat_eq (l : List Char) :
    parsePyFloat l = (parseFloatBody (parseSign l).2).map
      (fun q => if (parseSign l).1 then -q else q) := rfl

theorem exp_shape_facts (ex : List Char)
    (hex : ex = [] ∨ ∃ e sg eds, (e = 'e' ∨ e = 'E') ∧
      (sg = [] ∨ sg = ['+'] ∨ sg = ['-']) ∧ eds ≠ [] ∧
      (∀ c ∈ eds, isDigitChar c = true) ∧ ex = e :: (sg ++ eds)) :
    ex.takeWhile isDigitChar = [] ∧ ex.dropWhile isDigitChar = ex ∧ splitDot ex = ([], ex) := by
  rcases hex with rfl | ⟨e, sg, eds, he, _, _, _, rfl⟩
  · exact ⟨rfl, rfl, rfl⟩
  · have hnd : isDigitChar e = false := by
      rcases he with rfl | rfl
      · decide
      · decide
    have hdot : e ≠ '.' := by
      rcases he with rfl | rfl
      · decide
      · decide
    exact ⟨List.takeWhile_cons_of_neg (by simp [hnd]),
      List.dropWhile_cons_of_neg (by simp [hnd]), splitDot_other e _ hdot⟩

theorem parseFloatBody_token (ds dp1 ds2 ex : List Char)
    (hds_ne : ds ≠ []) (hds_all : ∀ c ∈ ds, isDigitChar c = true)
    (hdp : (dp1 = ['.'] ∧ ∀ c ∈ ds2, isDigitChar c = true) ∨ (dp1 = [] ∧ ds2 = []))
    (hex : ex = [] ∨ ∃ e sg eds, (e = 'e' ∨ e = 'E') ∧
      (sg = [] ∨ sg = ['+'] ∨ sg = ['-']) ∧ eds ≠ [] ∧
      (∀ c ∈ eds, isDigitChar c = true) ∧ ex = e :: (sg ++ eds)) :
    ∃ w, parseFloatBody (ds ++ dp1 ++ ds2 ++ ex) = some w := by
  obtain ⟨hext, hexd, hexs⟩ := exp_shape_facts ex hex
  rcases hdp with ⟨rfl, hds2_all⟩ | ⟨rfl, rfl⟩
  · have hB : ds ++ ['.'] ++ ds2 ++ ex = ds ++ ('.' :: (ds2 ++ ex)) := by simp
    rw [hB]
    have htakeB : (ds ++ ('.' :: (ds2 ++ ex))).takeWhile isDigitChar = ds := by
      rw [List.takeWhile_append_of_pos hds_all,
        List.takeWhile_cons_of_neg (by decide), List.append_nil]
    have hdropB : (ds ++ ('.' :: (ds2 ++ ex))).dropWhile isDigitChar = '.' :: (ds2 ++ ex) := by
      rw [List.dropWhile_append_of_pos hds_all,
        List.dropWhile_cons_of_neg (by decide)]
    have hsd : splitDot ('.' :: (ds2 ++ ex)) = (['.'], ds2 ++ ex) := rfl
    have hfp : (ds2 ++ ex).takeWhile isDigitChar = ds2 := by
      rw [List.takeWhile_append_of_pos hds2_all, hext, List.append_nil]
    have hr3 : (ds2 ++ ex).dropWhile isDigitChar = ex := by
      rw [List.dropWhile_append_of_pos hds2_all, hexd]
    obtain ⟨w, hw⟩ := parseExpPart_exists ex hex
    rw [parseFloatBody_eq, hdropB, hsd]
    simp only [hfp, hr3, htakeB]
    rw [if_neg (by simp), if_neg (by simp [hds_ne]), hw]
    exact ⟨_, rfl⟩
  · have hB : ds ++ [] ++ [] ++ ex = ds ++ ex := by simp
    rw [hB]
    have htakeB : (ds ++ ex).takeWhile isDigitChar = ds := by
      rw [List.takeWhile_append_of_pos hds_all, hext, List.append_nil]
    have hdropB : (ds ++ ex).dropWhile isDigitChar = ex := by
      rw [List.dropWhile_append_of_pos hds_all, hexd]
    obtain ⟨w, hw⟩ := parseExpPart_exists ex hex
    refine ⟨(digitsToNat ds : ℚ) * (10 : ℚ) ^ w, ?_⟩
    rw [parseFloatBody_eq, hdropB, hexs]
    simp [htakeB, hds_ne, hw]

theorem matchAfterSign_parses (sgn l1 tok : List Char)
    (hs : sgn = [] ∨ sgn = ['-'])
    (h : matchAfterSign sgn l1 = some tok) :
    ∃ v, parsePyFloat tok = some v := by
  rw [matchAfterSign_eq] at h
  by_cases hds : l1.takeWhile isDigitChar = []
  · rw [if_pos hds] at h
    exact absurd h (by simp)
  · rw [if_neg hds] at h
    injection h with h2
    subst h2
    have hds_all : ∀ c ∈ l1.takeWhile isDigitChar, isDigitChar c = true :=
      fun c hc => List.mem_takeWhile_imp hc
    have hexshape := matchExpAt_shape ((splitDot (l1.dropWhile isDigitChar)).2.dropWhile isDigitChar)
    have hdp' : ((splitDot (l1.dropWhile isDigitChar)).1 = ['.'] ∧
        ∀ c ∈ (splitDot (l1.dropWhile isDigitChar)).2.takeWhile isDigitChar,
          isDigitChar c = true) ∨
        ((splitDot (l1.dropWhile isDigitChar)).1 = [] ∧
          (splitDot (l1.dropWhile isDigitChar)).2.takeWhile isDigitChar = []) := by
      rcases splitDot_cases (l1.dropWhile isDigitChar) with hcase | ⟨r, hr, hcase⟩
      · right
        rw [hcase]
        exact ⟨rfl, takeWhile_dropWhile_nil _ _⟩
      · left
        rw [hcase]
        exact ⟨rfl, fun c hc => List.mem_takeWhile_imp hc⟩
    obtain ⟨w, hw⟩ := parseFloatBody_token (l1.takeWhile isDigitChar)
      (splitDot (l1.dropWhile isDigitChar)).1
      ((splitDot (l1.dropWhile isDigitChar)).2.takeWhile isDigitChar)
      (matchExpAt ((splitDot (l1.dropWhile isDigitChar)).2.dropWhile isDigitChar))
      hds hds_all hdp' hexshape
    rcases hs with rfl | rfl
    · simp only [List.nil_append]
      cases hd : l1.takeWhile isDigitChar with
      | nil => exact absurd hd hds
      | cons d t =>
        have hdig : isDigitChar d = true := hds_all d (by rw [hd]; simp)
        obtain ⟨h1, h2, _⟩ := digitChar_ne d hdig
        rw [hd] at hw
        have hsign : parseSign ((d :: t) ++ (splitDot (l1.dropWhile isDigitChar)).1 ++
            (splitDot (l1.dropWhile isDigitChar)).2.takeWhile isDigitChar ++
            matchExpAt ((splitDot (l1.dropWhile isDigitChar)).2.dropWhile isDigitChar)) =
            (false, (d :: t) ++ (splitDot (l1.dropWhile isDigitChar)).1 ++
            (splitDot (l1.dropWhile isDigitChar)).2.takeWhile isDigitChar ++
            matchExpAt ((splitDot (l1.dropWhile isDigitChar)).2.dropWhile isDigitChar)) := by
          simp only [List.cons_append]
          exact parseSign_other d _ h1 h2
        refine ⟨w, ?_⟩
        rw [parsePyFloat_eq, hsign]
        simp only []
        rw [hw]
        simp
    · have hsign : parseSign (['-'] ++ l1.takeWhile isDigitChar ++
          (splitDot (l1.dropWhile isDigitChar)).1 ++
          (splitDot (l1.dropWhile isDigitChar)).2.takeWhile isDigitChar ++
          matchExpAt ((splitDot (l1.dropWhile isDigitChar)).2.dropWhile isDigitChar)) =
          (true, l1.takeWhile isDigitChar ++
          (splitDot (l1.dropWhile isDigitChar)).1 ++
          (splitDot (l1.dropWhile isDigitChar)).2.takeWhile isDigitChar ++
          matchExpAt ((splitDot (l1.dropWhile isDigitChar)).2.dropWhile isDigitChar)) := by
        simp only [List.cons_append, List.singleton_append, List.append_assoc]
        rfl
      refine ⟨-w, ?_⟩
      rw [parsePyFloat_eq, hsign]
      simp only []
      rw [hw]
      simp

theorem matchNumberAt_parses (l tok : List Char) (h : matchNumberAt l = some tok) :
    ∃ v, parsePyFloat tok = some v := by
  unfold matchNumberAt at h
  rcases splitNeg_cases l with hc | ⟨r, hr, hc⟩
  · rw [hc] at h
    exact matchAfterSign_parses [] l tok (Or.inl rfl) h
  · rw [hc] at h
    exact matchAfterSign_parses ['-'] r tok (Or.inr rfl) h

theorem findFirstNumber_leftmost (l tok : List Char) (h : findFirstNumber l = some tok) :
    ∃ i, i ≤ l.length ∧ matchNumberAt (l.drop i) = some tok ∧
      ∀ j, j < i → matchNumberAt (l.drop j) = none := by
  induction l with
  | nil => exact absurd h (by simp [findFirstNumber])
  | cons c rest ih =>
    rw [findFirstNumber] at h
    cases hm : matchNumberAt (c :: rest) with
    | some tok2 =>
      rw [hm] at h
      refine ⟨0, by simp, ?_, by omega⟩
      rw [List.drop_zero, hm]
      exact h
    | none =>
      rw [hm] at h
      obtain ⟨i, hi, hmi, hj⟩ := ih h
      refine ⟨i + 1, by simpa using Nat.succ_le_succ hi, by simpa using hmi, ?_⟩
      intro j hj2
      cases j with
      | zero => simpa using hm
      | succ j2 =>
        have := hj j2 (by omega)
        simpa using this

theorem findFirstNumber_none_extract (t : List Char)
    (hfull : parsePyFloat (stripBoth t) = none)
    (hfind : findFirstNumber t = none) :
    GAIAScorer._extract_number t = none := by
  unfold GAIAScorer._extract_number
  rw [hfull, hfind]

theorem extract_number_full (t : List Char) (v : ℚ)
    (h : parsePyFloat (stripBoth t) = some v) :
    GAIAScorer._extract_number t = some v := by
  unfold GAIAScorer._extract_number
  rw [h]

theorem extract_number_fallback (t tok : List Char)
    (hfull : parsePyFloat (stripBoth t) = none)
    (hfind : findFirstNumber t = some tok) :
    GAIAScorer._extract_number t = parsePyFloat tok := by
  unfold GAIAScorer._extract_number
  rw [hfull, hfind]
  show (match parsePyFloat tok with
    | some v => some v
    | none => none) = parsePyFloat tok
  cases parsePyFloat tok with
  | none => rfl
  | some v => rfl

theorem numerical_match_some (sc : GAIAScorer) (p g : List Char) (pn gn : ℚ)
    (hp : GAIAScorer._extract_number p = some pn)
    (hg : GAIAScorer._extract_number g = some gn) :
    sc._numerical_match p g =
      if gn = 0 then (if pn = 0 then (1 : ℚ) else 0)
      else if |pn - gn| / |gn| ≤ sc.numerical_tolerance then 1 else 0 := by
  unfold GAIAScorer._numerical_match
  rw [hp, hg]

theorem numerical_match_none (sc : GAIAScorer) (p g : List Char)
    (h : GAIAScorer._extract_number p = none ∨ GAIAScorer._extract_number g = none) :
    sc._numerical_match p g = 0 := by
  unfold GAIAScorer._numerical_match
  rcases h with h | h
  · rw [h]
  · rw [h]
    cases GAIAScorer._extract_number p
    · rfl
    · rfl

/-! ## The claims -/

/-- C1: `score` applies a strict four-stage precedence, stopping at the first
success: byte-for-byte equality gives `(1, true, true)`; otherwise equal
normalized forms give `(1, false, true)`; otherwise a successful numerical
match (the numerical stage returning a positive value) gives
`(1, false, false)`; otherwise the result is `(0, false, false)`. -/
theorem score_four_stage_precedence (sc : GAIAScorer) (predicted gold : List Char) :
    sc.score predicted gold =
      if predicted = gold then (1, true, true)
      else if GAIAScorer._normalize predicted = GAIAScorer._normalize gold then (1, false, true)
      else if sc._numerical_match predicted gold > 0 then (1, false, false)
      else (0, false, false) :=
  score_eq sc predicted gold

/-- C2: normalization is exactly lowercase, delete every character that is
neither a word character nor whitespace, collapse whitespace runs to single
spaces, and strip — rendered independently by `normalizeSpec`, which joins
the maximal non-whitespace runs of the lowercased filtered string with
single ASCII spaces; and deleted punctuation leaves no separator behind, so
normalizing "123-456" yields "123456". -/
theorem normalize_spec_conformance (text : List Char) :
    GAIAScorer._normalize text = normalizeSpec text ∧
    GAIAScorer._normalize "123-456".data = "123456".data :=
  ⟨normalize_eq_spec text, by decide⟩

/-- C3: numeric extraction first tries to parse the whole stripped string as
a float; if that fails it takes the leftmost regex match (which always
parses as a float) and parses that; if neither succeeds it yields `none`,
which is a value distinct from `some 0`. -/
theorem extract_number_two_stage (t : List Char) :
    (∀ v, parsePyFloat (stripBoth t) = some v → GAIAScorer._extract_number t = some v) ∧
    (parsePyFloat (stripBoth t) = none →
      (∀ tok, findFirstNumber t = some tok →
        GAIAScorer._extract_number t = parsePyFloat tok ∧
        (∃ v, parsePyFloat tok = some v) ∧
        ∃ i, i ≤ t.length ∧ matchNumberAt (t.drop i) = some tok ∧
          ∀ j, j < i → matchNumberAt (t.drop j) = none) ∧
      (findFirstNumber t = none → GAIAScorer._extract_number t = none)) := by
  refine ⟨fun v hv => extract_number_full t v hv,
    fun hfull => ⟨fun tok htok => ?_, fun hnone => findFirstNumber_none_extract t hfull hnone⟩⟩
  obtain ⟨i, hi, hmi, hleft⟩ := findFirstNumber_leftmost t tok htok
  exact ⟨extract_number_fallback t tok hfull htok,
    matchNumberAt_parses _ tok hmi, i, hi, hmi, hleft⟩

/-- Witness for C3 at a concrete input: on "The answer is 42" the full-string
parse fails, the regex finds "42", and extraction yields 42. -/
theorem extract_number_two_stage_witness :
    GAIAScorer._extract_number "The answer is 42".data = some 42 := by
  have h := ((extract_number_two_stage "The answer is 42".data).2
    (by with_unfolding_all decide)).1 "42".data (by decide)
  rw [h.1]
  with_unfolding_all decide

/-- C4: the numerical stage fails (returns 0) when either extraction yields
no number; with both numbers extracted, if gold's number is exactly 0 the
stage succeeds iff predicted's number is exactly 0, and otherwise it
succeeds iff the relative error is at most the tolerance (inclusive bound);
its result is always 0 or 1. -/
theorem numerical_match_spec (sc : GAIAScorer) (predicted gold : List Char) :
    ((GAIAScorer._extract_number predicted = none ∨
        GAIAScorer._extract_number gold = none) →
      sc._numerical_match predicted gold = 0) ∧
    (∀ predicted_num gold_num,
      GAIAScorer._extract_number predicted = some predicted_num →
      GAIAScorer._extract_number gold = some gold_num →
      ((gold_num = 0 →
        (sc._numerical_match predicted gold = 1 ↔ predicted_num = 0)) ∧
       (gold_num ≠ 0 →
        (sc._numerical_match predicted gold = 1 ↔
          |predicted_num - gold_num| / |gold_num| ≤ sc.numerical_tolerance)))) ∧
    (sc._numerical_match predicted gold = 0 ∨ sc._numerical_match predicted gold = 1) := by
  refine ⟨numerical_match_none sc predicted gold, ?_,
    numerical_match_cases sc predicted gold⟩
  intro pn gn hp hg
  rw [numerical_match_some sc predicted gold pn gn hp hg]
  constructor
  · intro h0
    rw [if_pos h0]
    constructor
    · intro h1
      by_contra hne
      rw [if_neg hne] at h1
      exact absurd h1 (by norm_num)
    · intro h1
      rw [if_pos h1]
  · intro hne
    rw [if_neg hne]
    constructor
    · intro h1
      by_contra hc
      rw [if_neg hc] at h1
      exact absurd h1 (by norm_num)
    · intro h1
      rw [if_pos h1]

/-- Witness for C4 at a concrete input: "100" versus "100.5" with the default
1% tolerance is a numerical match (relative error 1/201 ≤ 1/100). -/
theorem numerical_match_spec_witness :
    (⟨1/100⟩ : GAIAScorer)._numerical_match "100".data "100.5".data = 1 := by
  have h := ((numerical_match_spec ⟨1/100⟩ "100".data "100.5".data).2.1 100 (201/2)
    (by with_unfolding_all decide) (by with_unfolding_all decide)).2 (by norm_num)
  exact h.mpr (by with_unfolding_all decide)

/-- C5: `batch_score` fails with the length-mismatch error message (stating
both lengths) iff the two sequences differ in length, scoring nothing in
that case; otherwise it returns exactly the element-wise application of
`score` to corresponding pairs in order, whose length equals the (common)
input length. -/
theorem batch_score_spec (sc : GAIAScorer) (predictions golds : List (List Char)) :
    (sc.batch_score predictions golds =
      if predictions.length = golds.length
      then Except.ok (List.zipWith sc.score predictions golds)
      else Except.error ("Predictions and golds must have same length: " ++
        Nat.repr predictions.length ++ " != " ++ Nat.repr golds.length)) ∧
    (List.zipWith sc.score predictions golds).length =
      min predictions.length golds.length := by
  constructor
  · unfold GAIAScorer.batch_score
    by_cases h : predictions.length = golds.length
    · rw [if_neg (by simp [h]), if_pos h, zip_map_eq_zipWith]
    · rw [if_pos h, if_neg h]
  · exact List.length_zipWith sc.score predictions golds

/-- C6: every `score` result has its numeric component in [0, 1],
`exact_match` implies `normalized_match` implies the score is 1, and the
score can be 1 with both booleans false (numeric-tolerance match, witnessed
by "The answer is 42" versus "42"). -/
theorem score_result_invariant :
    (∀ (sc : GAIAScorer) (predicted gold : List Char),
      0 ≤ (sc.score predicted gold).1 ∧ (sc.score predicted gold).1 ≤ 1 ∧
      ((sc.score predicted gold).2.1 = true → (sc.score predicted gold).2.2 = true) ∧
      ((sc.score predicted gold).2.2 = true → (sc.score predicted gold).1 = 1)) ∧
    (⟨1/100⟩ : GAIAScorer).score "The answer is 42".data "42".data = (1, false, false) := by
  constructor
  · intro sc p g
    rw [score_eq]
    split_ifs
    all_goals norm_num
  · with_unfolding_all decide

/-- Witness for C6 at a concrete input: for "Paris" versus "paris" the
normalized-match flag is set, and by the invariant the score is 1. -/
theorem score_result_invariant_witness :
    ((⟨1/100⟩ : GAIAScorer).score "Paris".data "paris".data).1 = 1 :=
  (score_result_invariant.1 ⟨1/100⟩ "Paris".data "paris".data).2.2.2
    (by with_unfolding_all decide)

/-- C7: `score` is total: the variant of the scorer whose division is
explicitly fallible always produces `some` of the score — the only division
is guarded by the zero test — and edge inputs (empty strings, punctuation
only, no extractable number) produce well-defined results, with no match
being the normal outcome `(0, false, false)`. -/
theorem score_total :
    (∀ (sc : GAIAScorer) (predicted gold : List Char),
      sc.scoreChecked predicted gold = some (sc.score predicted gold)) ∧
    (⟨1/100⟩ : GAIAScorer).score [] [] = (1, true, true) ∧
    (⟨1/100⟩ : GAIAScorer).score [] "London".data = (0, false, false) ∧
    (⟨1/100⟩ : GAIAScorer).score "?!".data "Paris".data = (0, false, false) ∧
    (⟨1/100⟩ : GAIAScorer).score "Paris".data "London".data = (0, false, false) :=
  ⟨scoreChecked_eq_some, by with_unfolding_all decide, by with_unfolding_all decide,
    by with_unfolding_all decide, by with_unfolding_all decide⟩

/-- C8: normalization is idempotent: normalizing an already-normalized
string returns it unchanged. -/
theorem normalize_idempotent (text : List Char) :
    GAIAScorer._normalize (GAIAScorer._normalize text) = GAIAScorer._normalize text :=
  normalize_idem_aux text

/-- C9: exactness dominance: for every string and every tolerance,
`score s s = (1, true, true)`. -/
theorem score_self_exact (sc : GAIAScorer) (s : List Char) :
    sc.score s s = (1, true, true) := by
  simp [GAIAScorer.score, GAIAScorer._exact_match]

/-- C10: the numeric component of every `score` result is exactly 0 or
exactly 1, never a strictly intermediate value. -/
theorem score_zero_or_one (sc : GAIAScorer) (predicted gold : List Char) :
    (sc.score predicted gold).1 = 0 ∨ (sc.score predicted gold).1 = 1 := by
  rw [score_eq]
  split_ifs
  all_goals norm_num

end Scoring
